import Mathlib

/-!
Shallow embedding of `src/ingest.py` (and the duplicated
`_validated_table_name` of `src/update_readme.py`) from the
oil-tenders-parser repository: the field normalizer, the feed fetcher's
record handling, and the offer store operations, with proofs of the
stated behavioural properties.

Third-party library calls are modelled as follows:
* `str.strip` / `int(...)` — implemented directly (`pyStrip`, `pyInt`),
  restricted to ASCII text, which covers every input appearing in the
  properties.
* `dateutil.parser.parse` wrapped in try/except — an arbitrary function
  `dp : String → Option DT` (any raised exception is `none`).
* `BeautifulSoup(value, "html.parser").get_text("\n")` — `bs_get_text`:
  one text node per maximal run of characters outside `<...>` markup,
  joined with a newline, which is the library's behaviour on fragments
  without entity references or `>` inside attribute values.
* `requests.compat.urljoin(URL, path)` — an arbitrary function
  `urljoin : String → String` (the origin URL is configuration).
* `re` patterns — direct executable matchers for the two patterns that
  occur in the code (`reMatchIdent`, `reSearchPdf`), including Python's
  rule that `$` also matches just before a trailing newline and that an
  unescaped `.` matches any character except a newline.
* the PostgreSQL table — a list of rows (insertion order) whose rows
  carry an optional integer id; `insert ... on conflict (id) do nothing`
  skips a row whose id is already present, and inserting a row with a
  null id is a not-null-constraint error.  Statements issued by
  `upsert_rows` are recorded as a `DBOp` trace; an uncommitted run
  leaves the stored table unchanged (psycopg rolls back on error).
-/

namespace OilTenders

/-! ### Python string helpers -/

/-- The characters removed by Python's `str.strip()` (ASCII range). -/
def pyIsSpace (c : Char) : Bool :=
  c = ' ' || c = '\t' || c = '\n' || c = '\r' || c = '\x0b' || c = '\x0c'

/-- Python `s.strip()`: drop leading and trailing whitespace. -/
def pyStrip (s : String) : String :=
  String.mk (((s.data.dropWhile pyIsSpace).reverse.dropWhile pyIsSpace).reverse)

/-- Numeric value of an ASCII digit. -/
def digitVal (c : Char) : Nat := c.toNat - 48

/-- Digit-group tail of a Python integer literal: digits with single
underscores allowed between digits (`int("1_0") = 10`, `int("1__0")`
and `int("1_")` raise). -/
def pyDigitsGo : Nat → List Char → Option Nat
  | acc, [] => some acc
  | acc, '_' :: c :: cs =>
    if c.isDigit then pyDigitsGo (acc * 10 + digitVal c) cs else none
  | _, ['_'] => none
  | acc, c :: cs =>
    if c.isDigit then pyDigitsGo (acc * 10 + digitVal c) cs else none

/-- Nonempty digit group of a Python integer literal. -/
def pyDigits : List Char → Option Nat
  | [] => none
  | c :: cs => if c.isDigit then pyDigitsGo (digitVal c) cs else none

/-- Python `int(s)` on an already-stripped ASCII string: optional sign,
then a nonempty digit group; anything else raises, modelled as `none`.
(`parse_row` wraps the call in try/except returning `None`.) -/
def pyInt (s : String) : Option Int :=
  match s.data with
  | '+' :: rest => (pyDigits rest).map Int.ofNat
  | '-' :: rest => (pyDigits rest).map (fun n => -(n : Int))
  | rest => (pyDigits rest).map Int.ofNat

/-! ### Table-name validation (`_validated_table_name`, identical in
`src/ingest.py` and `src/update_readme.py`) -/

/-- A character of `[A-Za-z0-9_]`. -/
def identChar (c : Char) : Bool := c.isAlpha || c.isDigit || c = '_'

/-- A character of `[A-Za-z_]`. -/
def identStart (c : Char) : Bool := c.isAlpha || c = '_'

/-- The bare pattern `[A-Za-z_][A-Za-z0-9_]*` against a whole string. -/
def identCore : List Char → Bool
  | [] => false
  | c :: cs => identStart c && cs.all identChar

/-- Python `re.match(r"^[A-Za-z_][A-Za-z0-9_]*$", s)` is a match: as in
Python, `$` also matches just before one trailing newline. -/
def reMatchIdent (s : String) : Bool :=
  identCore s.data ||
    (if s.data.getLast? = some '\n' then identCore s.data.dropLast else false)

/-- Model of `_validated_table_name(name)`: falsy name falls back to the
default, a stripped-empty name falls back to the default, a stripped
name failing the identifier pattern raises `ValueError` (modelled as
`Except.error`), otherwise the stripped name is returned. -/
def _validated_table_name (name : Option String) : Except String String :=
  match name with
  | none => Except.ok "oil_offers_export"
  | some n =>
    if n = "" then Except.ok "oil_offers_export"
    else
      let n := pyStrip n
      if n = "" then Except.ok "oil_offers_export"
      else if reMatchIdent n then Except.ok n
      else Except.error ("Invalid table name: " ++ n)

/-! ### Markup stripping (`html_to_text`) -/

/-- Characters after `<` that make Python's html.parser treat it as
markup (tag, end tag, declaration or processing instruction). -/
def tagStarter (c : Char) : Bool := c.isAlpha || c = '/' || c = '!' || c = '?'

/-- Flush the (reversed) accumulator of data characters as a text node. -/
def flushNode (acc : List Char) : List String :=
  if acc.isEmpty then [] else [String.mk acc.reverse]

theorem dropWhile_length_le (p : α → Bool) (l : List α) :
    (l.dropWhile p).length ≤ l.length := by
  induction l with
  | nil => simp
  | cons c cs ih =>
    rw [List.dropWhile]
    cases p c
    · simp
    · simp only [List.length_cons]
      omega

/-- Drop an exact literal off the front of a string, or fail. -/
def dropLit : List Char → List Char → Option (List Char)
  | [], s => some s
  | _ :: _, [] => none
  | p :: ps, c :: cs => if c = p then dropLit ps cs else none

/-- Python `s.replace(pat, rep)` on character lists: replace every
non-overlapping occurrence, scanning left to right.  `fuel` bounds the
recursion (any `fuel ≥` the list length is enough for a nonempty
pattern); recursion on it keeps the function kernel-computable. -/
def replaceGo (pat rep : List Char) : Nat → List Char → List Char
  | _, [] => []
  | 0, l => l
  | f + 1, c :: cs =>
    match dropLit pat (c :: cs) with
    | some rest => rep ++ replaceGo pat rep f rest
    | none => c :: replaceGo pat rep f cs

/-- Python `s.replace(pat, rep)` for a nonempty pattern (the only case
the code exercises; an empty pattern is returned unchanged here). -/
def pyReplace (s pat rep : String) : String :=
  if pat = "" then s
  else String.mk (replaceGo pat.data rep.data s.data.length s.data)

/-- Text nodes of an HTML fragment, in document order: maximal runs of
characters outside `<...>` markup; a `<` not opening markup is emitted
as its own data node (as html.parser does).  `acc` holds the pending
data characters in reverse; `fuel ≥` the list length never runs out. -/
def textNodesGo : List Char → Nat → List Char → List String
  | acc, _, [] => flushNode acc
  | acc, 0, _ => flushNode acc
  | acc, f + 1, '<' :: c :: rest =>
    if tagStarter c then
      flushNode acc ++ textNodesGo [] f (((c :: rest).dropWhile (fun d => d ≠ '>')).drop 1)
    else
      flushNode acc ++ ["<"] ++ textNodesGo [] f (c :: rest)
  | acc, _ + 1, ['<'] => flushNode acc ++ ["<"]
  | acc, f + 1, c :: cs => textNodesGo (c :: acc) f cs

/-- The text nodes of a fragment. -/
def textNodes (l : List Char) : List String :=
  textNodesGo [] l.length l

/-- Model of `BeautifulSoup(value, "html.parser").get_text("\n")`: the text
nodes joined by a newline separator. -/
def bs_get_text (value : String) : String :=
  String.intercalate "\n" (textNodes value.data)

/-- Model of `html_to_text(value)`: `None` becomes `""`; `<br>` variants become
newlines; remaining markup is stripped with newline separation between
text nodes; the result is stripped. -/
def html_to_text (value : Option String) : String :=
  match value with
  | none => ""
  | some value =>
    let v := pyReplace (pyReplace (pyReplace value "<br>" "\n") "<br/>" "\n") "<br />" "\n"
    pyStrip (bs_get_text v)

/-! ### PDF link extraction (`extract_pdf_url`)

The code searches with the raw-string pattern
`window.open\('([^']+descarga_pdf_oferta\\.php\?[^']+)'`.
Read as a regular expression this is: `window`, any non-newline
character, `open('`, then the group — one or more non-quote characters,
the literal `descarga_pdf_oferta`, a literal backslash (`\\`), any
non-newline character (the unescaped `.`), the literal `php?` — one or
more non-quote characters, then a closing quote.  The matcher below
implements exactly that search (leftmost position, greedy first
repetition with backtracking, greedy final repetition). -/

/-- The unescaped `.` of a Python pattern: any character but `\n`. -/
def reAny (c : Char) : Bool := c ≠ '\n'

/-- Python `s.startswith(pre)`. -/
def pyStartsWith (s pre : String) : Bool := (dropLit pre.data s.data).isSome

/-- Match `descarga_pdf_oferta\\.php\?[^']+'` at the front of `u`;
returns the characters the group consumes (everything but the final
quote). -/
def pdfTailMatch (u : List Char) : Option (List Char) :=
  match dropLit "descarga_pdf_oferta".data u with
  | none => none
  | some u1 =>
    match u1 with
    | '\\' :: c :: u2 =>
      if reAny c then
        match dropLit "php?".data u2 with
        | none => none
        | some u3 =>
          let b := u3.takeWhile (fun d => d ≠ '\'')
          if b.isEmpty then none
          else
            match u3.drop b.length with
            | '\'' :: _ =>
              some ("descarga_pdf_oferta".data ++ '\\' :: c :: "php?".data ++ b)
            | _ => none
      else none
    | _ => none

/-- Backtracking over the length of the leading `[^']+` (longest
first, as a greedy repetition): `u.take k` is the leading repetition,
`pdfTailMatch` the rest of the group. -/
def pdfGroupGo (u : List Char) : Nat → Option (List Char)
  | 0 => none
  | k + 1 =>
    match pdfTailMatch (u.drop (k + 1)) with
    | some tail => some (u.take (k + 1) ++ tail)
    | none => pdfGroupGo u k

/-- Match the whole pattern at the start of `s`; returns the group. -/
def pdfMatchAt (s : List Char) : Option String :=
  match dropLit "window".data s with
  | none => none
  | some s1 =>
    match s1 with
    | c :: s2 =>
      if reAny c then
        match dropLit "open('".data s2 with
        | none => none
        | some u =>
          let run := u.takeWhile (fun d => d ≠ '\'')
          (pdfGroupGo u run.length).map String.mk
      else none
    | [] => none

/-- Model of `re.search`: try the pattern at each position, leftmost first. -/
def reSearchPdf : List Char → Option String
  | [] => none
  | c :: rest =>
    match pdfMatchAt (c :: rest) with
    | some g => some g
    | none => reSearchPdf rest

/-- Model of `extract_pdf_url(value)`: falsy value yields `None`; otherwise
search for the pattern; on a match, an absolute (`http...`) path is
returned as is and a relative path is resolved against the configured
origin (`requests.compat.urljoin(URL, path)`, modelled by `urljoin`);
no match yields `None`. -/
def extract_pdf_url (urljoin : String → String) (value : String) : Option String :=
  if value = "" then none
  else
    match reSearchPdf value.data with
    | none => none
    | some path =>
      if pyStartsWith path "http" then some path
      else some (urljoin path)

/-! ### The normalized record (`parse_row`)

`DT` stands for the `datetime` values produced by dateutil and `D` for
calendar dates; `dp` models `dateutil.parser.parse(s, dayfirst=True)`
wrapped in try/except (`none` for any raised exception) and `dateOf`
models `datetime.date()`. -/

/-- The dict returned by `parse_row`. -/
structure Offer (DT D : Type) where
  id : Option Int
  published_at : Option DT
  company : String
  product : String
  volume : String
  delivery_start : Option D
  delivery_end : Option D
  price_formula : String
  ncm : String
  delivery_location : String
  notes : String
  basin : String
  pdf_url : Option String
  vigente : Option String
deriving DecidableEq

/-- Helper `clean(i)` of `parse_row`: `row[i] if i < len(row) else None` —
positions beyond the available length yield `None`; a stored JSON
`null` also yields `None`. -/
def cleanField (row : List (Option String)) (i : Nat) : Option String :=
  (row.get? i).getD none

/-- Helper `parse_dt(s)`: falsy input yields `None`; otherwise the
best-effort date parse, `None` on failure. -/
def parse_dt {DT : Type} (dp : String → Option DT) (s : Option String) : Option DT :=
  match s with
  | none => none
  | some s => if s = "" then none else dp s

/-- Helper `parse_d(s)`: the date part of `parse_dt(s)`. -/
def parse_d {DT D : Type} (dp : String → Option DT) (dateOf : DT → D)
    (s : Option String) : Option D :=
  (parse_dt dp s).map dateOf

/-- Model of `parse_row(row)`: the normalizer, field by field as in the source. -/
def parse_row {DT D : Type} (urljoin : String → String) (dp : String → Option DT)
    (dateOf : DT → D) (row : List (Option String)) : Offer DT D :=
  { id := (cleanField row 0).bind (fun s => pyInt (pyStrip s))
    published_at := parse_dt dp (cleanField row 1)
    company := pyStrip ((cleanField row 2).getD "")
    product := html_to_text (some ((cleanField row 3).getD ""))
    volume := pyStrip ((cleanField row 4).getD "")
    delivery_start := parse_d dp dateOf (cleanField row 5)
    delivery_end := parse_d dp dateOf (cleanField row 6)
    price_formula := pyStrip ((cleanField row 7).getD "")
    ncm := pyStrip ((cleanField row 8).getD "")
    delivery_location := pyStrip ((cleanField row 9).getD "")
    notes := html_to_text (some ((cleanField row 10).getD ""))
    basin := html_to_text (some ((cleanField row 11).getD ""))
    pdf_url := extract_pdf_url urljoin ((cleanField row 12).getD "")
    vigente :=
      let v := pyStrip (html_to_text (some ((cleanField row 13).getD "")))
      if v = "" then none else some v }

/-- Model of `fetch_data()`, after the HTTP layer: `data.get("aaData", [])`
(`none` models a payload without the key), each raw record normalized,
offers without an id dropped. -/
def fetch_data {DT D : Type} (urljoin : String → String) (dp : String → Option DT)
    (dateOf : DT → D) (aaData : Option (List (List (Option String)))) :
    List (Offer DT D) :=
  let rows := aaData.getD []
  let parsed := rows.map (parse_row urljoin dp dateOf)
  parsed.filter (fun p => p.id.isSome)

/-! ### The Offer Store (`ensure_table`, `upsert_rows`)

The table `public.<name>` is a list of rows in insertion order; a row
is any type `R` with a projection `idOf : R → Option Int` giving the
value of its `id` column (`r.get("id")`).  `upsert_rows` is generic in
`R`; the concrete instantiations below use `Option Int × String`.
Statements issued against the database are recorded as a `DBOp`
trace. -/

/-- One statement issued by `upsert_rows`: the known-ids `select`, one
`executemany` batch of the `insert ... on conflict (id) do nothing`
statement, or the final `commit`. -/
inductive DBOp (R : Type) where
  | selectIds : List Int → DBOp R
  | insertBatch : List R → DBOp R
  | commit : DBOp R
deriving DecidableEq

/-- Is this operation the `commit`? -/
def DBOp.isCommit {R : Type} : DBOp R → Bool
  | .commit => true
  | _ => false

/-- The rows of an insert batch, if this operation is one. -/
def DBOp.batchRows {R : Type} : DBOp R → Option (List R)
  | .insertBatch l => some l
  | _ => none

variable {R : Type}

/-- The `id` column of the stored table, in row order. -/
def tableIds (idOf : R → Option Int) (t : List R) : List Int :=
  t.filterMap idOf

/-- Insert one row under `on conflict (id) do nothing`: a duplicate id
is skipped, a fresh id is appended, a null id violates the primary
key's not-null constraint. -/
def insertOne (idOf : R → Option Int) (t : List R) (r : R) : Except String (List R) :=
  match idOf r with
  | none => Except.error "null value in column id violates not-null constraint"
  | some i =>
    if i ∈ tableIds idOf t then Except.ok t else Except.ok (t ++ [r])

/-- Insert a list of rows in order (one `executemany` batch). -/
def insertList (idOf : R → Option Int) (t : List R) : List R → Except String (List R)
  | [] => Except.ok t
  | r :: rs =>
    match insertOne idOf t r with
    | Except.error e => Except.error e
    | Except.ok t' => insertList idOf t' rs

/-- Batching `records[i : i + (n+1)]` for `i in range(0, len(records), n+1)`:
the batches of `upsert_rows`, each of size at most `n + 1`.  The code
uses `batch_size = 500`, i.e. `n = 499`.  `fuel ≥` the list length
never runs out; recursion on it keeps the function kernel-computable. -/
def toBatchesGo (n : Nat) : Nat → List R → List (List R)
  | _, [] => []
  | 0, _ => []
  | f + 1, r :: rs => (r :: rs).take (n + 1) :: toBatchesGo n f ((r :: rs).drop (n + 1))

/-- The batches of size at most `n + 1`. -/
def toBatches (n : Nat) (l : List R) : List (List R) :=
  toBatchesGo n l.length l

/-- Execute the batches in order; a failing batch aborts the loop with
no commit. -/
def runBatches (idOf : R → Option Int) (t : List R) :
    List (List R) → Except String (List R) × List (DBOp R)
  | [] => (Except.ok t, [])
  | b :: bs =>
    match insertList idOf t b with
    | Except.error e => (Except.error e, [DBOp.insertBatch b])
    | Except.ok t' =>
      let (res, ops) := runBatches idOf t' bs
      (res, DBOp.insertBatch b :: ops)

/-- The `new_rows` list of `upsert_rows`: rows whose `id` is not among the
already-existing ids (a `None` id is never in a set of integers, so
such rows are kept). -/
def new_rows (idOf : R → Option Int) (existing : List Int) (rows : List R) : List R :=
  rows.filter (fun r =>
    match idOf r with
    | none => true
    | some i => !decide (i ∈ existing))

/-- Model of `upsert_rows(conn, rows, table_name)` over table state `t`
(`table_name` resolution is `_validated_table_name`, modelled above;
`t` stands for the rows of `public.<table_name>`).  Returns the
committed table state, the returned count (or the raised database
error), and the trace of issued statements.  An empty `rows` returns 0
with no statement; the known-ids `select` is skipped when no row has
an id; if `new_rows` is empty the function returns 0 without inserting
or committing; otherwise the new rows are inserted in batches of 500
and a single `commit` ends the run.  A raised error commits nothing,
leaving the table unchanged. -/
def upsert_rows (idOf : R → Option Int) (t : List R) (rows : List R) :
    (List R × Except String Nat) × List (DBOp R) :=
  if rows.isEmpty then ((t, Except.ok 0), [])
  else
    let ids := rows.filterMap idOf
    let selOps : List (DBOp R) := if ids.isEmpty then [] else [DBOp.selectIds ids]
    let existing := (tableIds idOf t).filter (fun i => decide (i ∈ ids))
    let nr := new_rows idOf existing rows
    if nr.isEmpty then ((t, Except.ok 0), selOps)
    else
      match runBatches idOf t (toBatches 499 nr) with
      | (Except.error e, ops) => ((t, Except.error e), selOps ++ ops)
      | (Except.ok t', ops) => ((t', Except.ok nr.length), selOps ++ ops ++ [DBOp.commit])

/-! ### Schema creation (`ensure_table`) -/

/-- The column list of the `create table if not exists` DDL. -/
def offersSchema : List (String × String) :=
  [("id", "integer primary key"),
   ("published_at", "timestamptz"),
   ("company", "text"),
   ("product", "text"),
   ("volume", "text"),
   ("delivery_start", "date"),
   ("delivery_end", "date"),
   ("price_formula", "text"),
   ("ncm", "text"),
   ("delivery_location", "text"),
   ("notes", "text"),
   ("basin", "text"),
   ("pdf_url", "text"),
   ("vigente", "text"),
   ("created_at", "timestamptz not null default now()")]

/-- Connection state: the autocommit flag, the catalog of created
tables (name and column list, in creation order), and every other
component of the connection's state, opaque in `ρ`. -/
structure Conn (ρ : Type) where
  autocommit : Bool
  tables : List (String × List (String × String))
  rest : ρ

/-- Effect of `create table if not exists public.<name> (...)`: a no-op when the
name exists, otherwise the table is added with the DDL's columns. -/
def createTableIfAbsent (tbls : List (String × List (String × String)))
    (name : String) : List (String × List (String × String)) :=
  if name ∈ tbls.map Prod.fst then tbls else tbls ++ [(name, offersSchema)]

/-- Model of `ensure_table(conn, table_name)`: validate the name (a raised
`ValueError` leaves the connection untouched); save `prev_autocommit`;
set `conn.autocommit = True`; execute the DDL (`ddlFails` models the
database raising); in the `finally` block restore
`conn.autocommit = prev_autocommit` on both exit paths.  Returns the
raised error (if any), the final connection state, and the list of
autocommit flags in effect at each DDL execution. -/
def ensure_table {ρ : Type} (ddlFails : Bool) (c : Conn ρ) (name : Option String) :
    (Option String × Conn ρ) × List Bool :=
  match _validated_table_name name with
  | Except.error e => ((some e, c), [])
  | Except.ok tn =>
    let prev := c.autocommit
    let c1 : Conn ρ := { c with autocommit := true }
    if ddlFails then
      ((some "DDL failed", { c1 with autocommit := prev }), [c1.autocommit])
    else
      let c2 : Conn ρ := { c1 with tables := createTableIfAbsent c1.tables tn }
      ((none, { c2 with autocommit := prev }), [c1.autocommit])

/-! ### Helper lemmas on stripping -/

theorem dropWhile_dropWhile (p : α → Bool) (l : List α) :
    (l.dropWhile p).dropWhile p = l.dropWhile p := by
  induction l with
  | nil => rfl
  | cons c cs ih =>
    by_cases h : p c
    · rw [List.dropWhile_cons_of_pos h]
      exact ih
    · rw [List.dropWhile_cons_of_neg h, List.dropWhile_cons_of_neg h]

theorem dropWhile_head_not (p : α → Bool) (l : List α) (c : α) (cs : List α)
    (h : l.dropWhile p = c :: cs) : p c = false := by
  induction l with
  | nil => simp at h
  | cons a as ih =>
    by_cases ha : p a
    · rw [List.dropWhile_cons_of_pos ha] at h
      exact ih h
    · rw [List.dropWhile_cons_of_neg ha] at h
      cases h
      exact Bool.of_not_eq_true ha

theorem getLast?_dropWhile (p : α → Bool) (l : List α)
    (h : l.dropWhile p ≠ []) : (l.dropWhile p).getLast? = l.getLast? := by
  induction l with
  | nil => simp at h
  | cons a as ih =>
    by_cases ha : p a
    · rw [List.dropWhile_cons_of_pos ha] at h ⊢
      cases has : as with
      | nil =>
        rw [has] at h
        simp at h
      | cons b bs =>
        rw [has] at h ih
        rw [ih h, List.getLast?_cons_cons]
    · rw [List.dropWhile_cons_of_neg ha]

theorem stripWith_idem (p : α → Bool) (l : List α) :
    ((((((l.dropWhile p).reverse.dropWhile p).reverse).dropWhile p).reverse).dropWhile p).reverse =
      ((l.dropWhile p).reverse.dropWhile p).reverse := by
  cases hB : (l.dropWhile p).reverse.dropWhile p with
  | nil => simp [hB]
  | cons b bs =>
    have hne : (l.dropWhile p).reverse.dropWhile p ≠ [] := by rw [hB]; simp
    have hlast : (b :: bs).getLast? = (l.dropWhile p).head? := by
      rw [← hB, getLast?_dropWhile p _ hne, List.getLast?_reverse]
    cases hA : l.dropWhile p with
    | nil =>
      rw [hA] at hB
      simp at hB
    | cons a as =>
      have hpa : p a = false := dropWhile_head_not p l a as hA
      rw [hA] at hlast
      have hBB : (b :: bs).dropWhile p = b :: bs := by
        have h2 := dropWhile_dropWhile p (l.dropWhile p).reverse
        rw [hB] at h2
        exact h2
      have hr : (b :: bs).reverse.dropWhile p = (b :: bs).reverse := by
        cases hrr : (b :: bs).reverse with
        | nil => simp at hrr
        | cons c cs =>
          have hc : some c = (b :: bs).getLast? := by
            rw [← List.head?_reverse, hrr]
            rfl
          rw [hlast] at hc
          have hca : c = a := Option.some.inj hc
          rw [List.dropWhile_cons_of_neg (by rw [hca, hpa]; simp)]
      rw [hr, List.reverse_reverse, hBB]

/-- Stripping with `pyStrip` is idempotent: a stripped string strips to itself. -/
theorem pyStrip_idem (s : String) : pyStrip (pyStrip s) = pyStrip s := by
  unfold pyStrip
  exact congrArg String.mk (stripWith_idem pyIsSpace s.data)

/-! ## Claim theorems -/

/-- C5 counterexample: the code's markup stripper joins the text nodes
of `"<b>bold</b> text"` (namely `"bold"` and `" text"`) with a newline
separator, so the result is not the spec's `"bold text"`. -/
theorem html_to_text_bold_counterexample :
    html_to_text (some "<b>bold</b> text") ≠ "bold text" := by decide

/-- C5 (amended): `"Line1<br>Line2"` strips to the two lines
`"Line1"`/`"Line2"` separated by a newline; `"<b>bold</b> text"`
strips to `"bold"` and `" text"` joined by a newline (the newline
separator is inserted between text nodes and the leading space of
`" text"` is kept, so the result is `"bold\n text"`, not
`"bold text"`); and in general the result is trimmed (stripping the
result again changes nothing). -/
theorem html_to_text_examples :
    html_to_text (some "Line1<br>Line2") = "Line1\nLine2" ∧
    html_to_text (some "<b>bold</b> text") = "bold\n text" ∧
    (∀ v : Option String, pyStrip (html_to_text v) = html_to_text v) := by
  refine ⟨by decide, by decide, ?_⟩
  intro v
  match v with
  | none => rfl
  | some v =>
    show pyStrip (pyStrip _) = pyStrip _
    exact pyStrip_idem _

/-! ### Helper lemmas for table-name validation -/

theorem dropWhile_eq_self_of_all (p : α → Bool) (l : List α)
    (h : ∀ c ∈ l, p c = false) : l.dropWhile p = l := by
  cases l with
  | nil => rfl
  | cons a as =>
    exact List.dropWhile_cons_of_neg (by simp [h a (List.mem_cons_self a as)])

/-- A string all of whose characters fail `pyIsSpace` strips to itself. -/
theorem pyStrip_eq_self (s : String) (h : ∀ c ∈ s.data, pyIsSpace c = false) :
    pyStrip s = s := by
  unfold pyStrip
  rw [dropWhile_eq_self_of_all _ _ h,
    dropWhile_eq_self_of_all _ _ (fun c hc => h c (List.mem_reverse.mp hc)),
    List.reverse_reverse]

/-- Identifier characters are not whitespace. -/
theorem identChar_not_space (c : Char) (h : identChar c = true) :
    pyIsSpace c = false := by
  rcases Bool.or_eq_true_iff.mp h with h1 | h2
  · rcases Bool.or_eq_true_iff.mp h1 with ha | hd
    · revert ha
      unfold Char.isAlpha Char.isUpper Char.isLower pyIsSpace
      intro ha
      rcases Bool.or_eq_true_iff.mp ha with h | h <;>
        · simp only [Bool.and_eq_true, decide_eq_true_eq] at h
          simp only [Bool.or_eq_false_iff, decide_eq_false_iff_not]
          refine ⟨⟨⟨⟨⟨?_, ?_⟩, ?_⟩, ?_⟩, ?_⟩, ?_⟩ <;> (intro e; rw [e] at h; revert h; decide)
    · revert hd
      unfold Char.isDigit pyIsSpace
      intro hd
      simp only [Bool.and_eq_true, decide_eq_true_eq] at hd
      simp only [Bool.or_eq_false_iff, decide_eq_false_iff_not]
      refine ⟨⟨⟨⟨⟨?_, ?_⟩, ?_⟩, ?_⟩, ?_⟩, ?_⟩ <;> (intro e; rw [e] at hd; revert hd; decide)
  · simp only [decide_eq_true_eq] at h2
    rw [h2]
    decide

/-- All characters of a string matching the identifier pattern are
identifier characters. -/
theorem identCore_all_chars (l : List Char) (h : identCore l = true) :
    ∀ c ∈ l, identChar c = true := by
  cases l with
  | nil => exact absurd h (by decide)
  | cons a as =>
    unfold identCore at h
    rcases Bool.and_eq_true_iff.mp h with ⟨h1, h2⟩
    intro c hc
    rcases List.mem_cons.mp hc with rfl | hc2
    · unfold identStart at h1
      unfold identChar
      rcases Bool.or_eq_true_iff.mp h1 with ha | hu
      · rw [ha]
        simp
      · rw [hu]
        simp
    · exact List.all_eq_true.mp h2 c hc2

/-- The last character of a stripped string is never whitespace. -/
theorem pyStrip_getLast_not_space (s : String) (c : Char)
    (h : (pyStrip s).data.getLast? = some c) : pyIsSpace c = false := by
  unfold pyStrip at h
  rw [show ∀ l : List Char, (String.mk l).data = l from fun _ => rfl,
    List.getLast?_reverse] at h
  cases hd : ((s.data.dropWhile pyIsSpace).reverse.dropWhile pyIsSpace) with
  | nil =>
    rw [hd] at h
    simp at h
  | cons b bs =>
    rw [hd] at h
    have hb : b = c := by
      have : some b = some c := by rw [← h]; rfl
      exact Option.some.inj this
    have := dropWhile_head_not pyIsSpace (s.data.dropWhile pyIsSpace).reverse b bs hd
    rw [← hb]
    exact this

/-- C6: table names matching the identifier pattern are returned
unchanged; nonempty names whose stripped form is nonempty but fails
the pattern raise `ValueError`; an absent, empty, or whitespace-only
name falls back to the default `"oil_offers_export"`; and the spec's
examples behave accordingly. -/
theorem table_name_validation :
    (∀ s : String, identCore s.data = true →
      _validated_table_name (some s) = Except.ok s) ∧
    (∀ s : String, s ≠ "" → pyStrip s ≠ "" → identCore (pyStrip s).data = false →
      _validated_table_name (some s) =
        Except.error ("Invalid table name: " ++ pyStrip s)) ∧
    _validated_table_name none = Except.ok "oil_offers_export" ∧
    _validated_table_name (some "") = Except.ok "oil_offers_export" ∧
    _validated_table_name (some "   ") = Except.ok "oil_offers_export" ∧
    _validated_table_name (some "offers") = Except.ok "offers" ∧
    _validated_table_name (some "oil_offers_2024") = Except.ok "oil_offers_2024" ∧
    _validated_table_name (some "offers; drop table x") =
      Except.error "Invalid table name: offers; drop table x" := by
  refine ⟨?_, ?_, rfl, rfl, rfl, rfl, rfl, rfl⟩
  · intro s hic
    have hne : s ≠ "" := by
      intro e
      rw [e] at hic
      exact absurd hic (by decide)
    have hstrip : pyStrip s = s :=
      pyStrip_eq_self s
        (fun c hc => identChar_not_space c (identCore_all_chars s.data hic c hc))
    have hmatch : reMatchIdent s = true := by
      unfold reMatchIdent
      rw [hic]
      rfl
    simp only [_validated_table_name]
    rw [if_neg hne, hstrip, if_neg hne, if_pos hmatch]
  · intro s hne hsne hic
    have hnl : ¬((pyStrip s).data.getLast? = some '\n') := by
      intro h
      have := pyStrip_getLast_not_space s '\n' h
      exact absurd this (by decide)
    have hmatch : reMatchIdent (pyStrip s) = false := by
      unfold reMatchIdent
      rw [hic, if_neg hnl]
      rfl
    simp only [_validated_table_name]
    rw [if_neg hne, if_neg hsne, hmatch]
    rfl

/-- C6 witness: the accepted and the raising branch, each applied to a
concrete name. -/
theorem table_name_validation_witness :
    _validated_table_name (some "offers") = Except.ok "offers" ∧
    _validated_table_name (some "my tbl") =
      Except.error ("Invalid table name: " ++ pyStrip "my tbl") :=
  ⟨table_name_validation.1 "offers" (by decide),
   table_name_validation.2.1 "my tbl" (by decide) (by decide) (by decide)⟩

/-- C4 (code bug): on the spec's example button field the search
returns no match, so `extract_pdf_url` yields `None`, not the joined
URL — the pattern demands a literal backslash before `.php` (the raw
string `\\.` is a regex backslash escape followed by a wildcard) and at
least one character between the opening quote and
`descarga_pdf_oferta`, and the documented input has neither.  The
second conjunct shows the matcher is exercised: an input that does
contain a backslash (and a character before the endpoint name) matches
and is resolved against the origin. -/
theorem extract_pdf_url_specimen_no_match :
    (∀ urljoin : String → String,
      extract_pdf_url urljoin
        "<a onclick=\"window.open('descarga_pdf_oferta.php?hgcd=55')\">" = none) ∧
    (∀ urljoin : String → String,
      extract_pdf_url urljoin "window.open('xdescarga_pdf_oferta\\.php?a=1')" =
        some (urljoin "xdescarga_pdf_oferta\\.php?a=1")) := by
  constructor
  · intro urljoin
    rfl
  · intro urljoin
    have h : reSearchPdf ("window.open('xdescarga_pdf_oferta\\.php?a=1')").data =
        some "xdescarga_pdf_oferta\\.php?a=1" := by decide
    unfold extract_pdf_url
    rw [if_neg (by decide), h]
    show (if pyStartsWith "xdescarga_pdf_oferta\\.php?a=1" "http" = true
        then some ("xdescarga_pdf_oferta\\.php?a=1" : String)
        else some (urljoin "xdescarga_pdf_oferta\\.php?a=1")) =
      some (urljoin "xdescarga_pdf_oferta\\.php?a=1")
    rw [if_neg (by decide)]

/-- C3: the normalizer is a total function (`parse_row` is a Lean
function, so it never raises) and is lenient: positional access past
the end of the record is absent; a present id field whose stripped
text does not parse as a Python integer gives an absent id (as does a
missing id field); a present publication or delivery date field on
which the date parse fails gives an absent date; and the fully-missing
record normalizes to the Offer with every field absent or the empty
string. -/
theorem parse_row_total_lenient {DT D : Type} (urljoin : String → String)
    (dp : String → Option DT) (dateOf : DT → D) :
    (∀ (row : List (Option String)) (i : Nat), row.length ≤ i →
      cleanField row i = none) ∧
    (∀ (row : List (Option String)) (s : String), cleanField row 0 = some s →
      pyInt (pyStrip s) = none → (parse_row urljoin dp dateOf row).id = none) ∧
    (∀ row : List (Option String), cleanField row 0 = none →
      (parse_row urljoin dp dateOf row).id = none) ∧
    (∀ (row : List (Option String)) (s : String), cleanField row 1 = some s →
      dp s = none → (parse_row urljoin dp dateOf row).published_at = none) ∧
    (∀ (row : List (Option String)) (s : String), cleanField row 5 = some s →
      dp s = none → (parse_row urljoin dp dateOf row).delivery_start = none) ∧
    (∀ (row : List (Option String)) (s : String), cleanField row 6 = some s →
      dp s = none → (parse_row urljoin dp dateOf row).delivery_end = none) ∧
    (parse_row urljoin dp dateOf [] =
      { id := none, published_at := none, company := "", product := "", volume := "",
        delivery_start := none, delivery_end := none, price_formula := "", ncm := "",
        delivery_location := "", notes := "", basin := "", pdf_url := none,
        vigente := none }) := by
  have hdt : ∀ (s : String), dp s = none → parse_dt dp (some s) = none := by
    intro s hs
    simp only [parse_dt]
    by_cases he : s = ""
    · rw [if_pos he]
    · rw [if_neg he, hs]
  refine ⟨?_, ?_, ?_, ?_, ?_, ?_, rfl⟩
  · intro row i hlen
    unfold cleanField
    rw [List.get?_eq_none.mpr hlen]
    rfl
  · intro row s hs hint
    show (cleanField row 0).bind (fun s => pyInt (pyStrip s)) = none
    rw [hs]
    exact hint
  · intro row hs
    show (cleanField row 0).bind (fun s => pyInt (pyStrip s)) = none
    rw [hs]
    rfl
  · intro row s hs hdp
    show parse_dt dp (cleanField row 1) = none
    rw [hs]
    exact hdt s hdp
  · intro row s hs hdp
    show (parse_dt dp (cleanField row 5)).map dateOf = none
    rw [hs, hdt s hdp]
    rfl
  · intro row s hs hdp
    show (parse_dt dp (cleanField row 6)).map dateOf = none
    rw [hs, hdt s hdp]
    rfl

/-- C3 witness: the lenient branches at concrete inputs — a too-short
record, a garbage id, a garbage date, and the empty record. -/
theorem parse_row_total_lenient_witness :
    cleanField [some "1"] 13 = none ∧
    (parse_row (fun p => p) (fun _ => (none : Option Nat)) (fun d => d)
      [some "12abc"]).id = none ∧
    (parse_row (fun p => p) (fun _ => (none : Option Nat)) (fun d => d)
      [some "7", some "not a date"]).published_at = none :=
  ⟨(parse_row_total_lenient (fun p => p) (fun _ => (none : Option Nat))
      (fun d => d)).1 [some "1"] 13 (by decide),
   (parse_row_total_lenient (fun p => p) (fun _ => (none : Option Nat))
      (fun d => d)).2.1 [some "12abc"] "12abc" rfl (by decide),
   (parse_row_total_lenient (fun p => p) (fun _ => (none : Option Nat))
      (fun d => d)).2.2.2.1 [some "7", some "not a date"] "not a date" rfl rfl⟩

/-- C7: `fetch_data` returns exactly the normalizations of the records
under the `aaData` key whose id parsed to an integer — the filter over
parsed offers equals normalizing the subset of raw records whose id
parses — and a payload without the key yields the empty list. -/
theorem fetch_data_filters_ids {DT D : Type} (urljoin : String → String)
    (dp : String → Option DT) (dateOf : DT → D) :
    fetch_data urljoin dp dateOf none = [] ∧
    (∀ rows : List (List (Option String)),
      fetch_data urljoin dp dateOf (some rows) =
        (rows.filter
          (fun r => (parse_row urljoin dp dateOf r).id.isSome)).map
          (parse_row urljoin dp dateOf)) := by
  constructor
  · rfl
  · intro rows
    show ((rows.map (parse_row urljoin dp dateOf)).filter (fun p => p.id.isSome)) = _
    rw [List.filter_map]
    rfl

/-! ### Store lemmas -/

theorem tableIds_append (idOf : R → Option Int) (t s : List R) :
    tableIds idOf (t ++ s) = tableIds idOf t ++ tableIds idOf s :=
  List.filterMap_append t s idOf

/-- What a successful `executemany` of the conflict-skipping insert
does: the table grows by an append of rows drawn from the batch, each
appended row's id was absent from the starting table, id-uniqueness is
preserved, the starting ids persist, and afterwards every id of the
batch is present. -/
theorem insertList_ok_spec (idOf : R → Option Int) :
    ∀ (b t t' : List R), insertList idOf t b = Except.ok t' →
      ∃ s, t' = t ++ s ∧
        (∀ r ∈ s, r ∈ b) ∧
        (∀ r ∈ s, ∀ i, idOf r = some i → i ∉ tableIds idOf t) ∧
        ((tableIds idOf t).Nodup → (tableIds idOf t').Nodup) ∧
        (∀ j ∈ tableIds idOf t, j ∈ tableIds idOf t') ∧
        (∀ r ∈ b, ∀ i, idOf r = some i → i ∈ tableIds idOf t') := by
  intro b
  induction b with
  | nil =>
    intro t t' h
    simp only [insertList] at h
    cases h
    exact ⟨[], by simp, by simp, by simp, fun hn => hn, fun j hj => hj, by simp⟩
  | cons r rs ih =>
    intro t t' h
    simp only [insertList] at h
    cases hio : insertOne idOf t r with
    | error e =>
      rw [hio] at h
      cases h
    | ok t1 =>
      rw [hio] at h
      cases hid : idOf r with
      | none =>
        simp only [insertOne, hid] at hio
        exact Except.noConfusion hio
      | some i =>
        simp only [insertOne, hid] at hio
        by_cases hmem : i ∈ tableIds idOf t
        · rw [if_pos hmem] at hio
          cases hio
          obtain ⟨s, hs1, hs2, hs3, hs4, hs5, hs6⟩ := ih t t' h
          refine ⟨s, hs1, fun x hx => List.mem_cons_of_mem r (hs2 x hx), hs3, hs4, hs5, ?_⟩
          intro x hx j hj
          rcases List.mem_cons.mp hx with rfl | hm
          · rw [hid] at hj
            injection hj with hj'
            subst hj'
            exact hs5 i hmem
          · exact hs6 x hm j hj
        · rw [if_neg hmem] at hio
          cases hio
          obtain ⟨s, hs1, hs2, hs3, hs4, hs5, hs6⟩ := ih (t ++ [r]) t' h
          have htr : tableIds idOf (t ++ [r]) = tableIds idOf t ++ [i] := by
            rw [tableIds_append]
            simp [tableIds, List.filterMap, hid]
          refine ⟨r :: s, ?_, ?_, ?_, ?_, ?_, ?_⟩
          · rw [hs1]
            simp
          · intro x hx
            rcases List.mem_cons.mp hx with rfl | hxs
            · exact List.mem_cons_self x rs
            · exact List.mem_cons_of_mem r (hs2 x hxs)
          · intro x hx j hj
            rcases List.mem_cons.mp hx with rfl | hxs
            · rw [hid] at hj
              cases hj
              exact hmem
            · intro hin
              exact hs3 x hxs j hj (by rw [htr]; exact List.mem_append_left _ hin)
          · intro hn
            apply hs4
            rw [htr]
            rw [List.nodup_append]
            exact ⟨hn, List.nodup_singleton i,
              fun a ha hb => by
                rw [List.mem_singleton] at hb
                exact hmem (hb ▸ ha)⟩
          · intro j hj
            exact hs5 j (by rw [htr]; exact List.mem_append_left _ hj)
          · intro x hx j hj
            rcases List.mem_cons.mp hx with rfl | hxs
            · rw [hid] at hj
              injection hj with hj'
              subst hj'
              exact hs5 i (by rw [htr]; exact List.mem_append_right _ (by simp))
            · exact hs6 x hxs j hj

theorem insertList_append (idOf : R → Option Int) (xs ys : List R) :
    ∀ t, insertList idOf t (xs ++ ys) =
      (insertList idOf t xs).bind (fun t1 => insertList idOf t1 ys) := by
  induction xs with
  | nil => intro t; rfl
  | cons x xs ih =>
    intro t
    simp only [List.cons_append, insertList]
    cases hio : insertOne idOf t x with
    | error e => rfl
    | ok t1 => exact ih t1

theorem runBatches_fst (idOf : R → Option Int) :
    ∀ (bs : List (List R)) (t), (runBatches idOf t bs).1 = insertList idOf t bs.flatten := by
  intro bs
  induction bs with
  | nil => intro t; rfl
  | cons b bs ih =>
    intro t
    rw [List.flatten_cons, insertList_append]
    simp only [runBatches]
    cases hio : insertList idOf t b with
    | error e => rfl
    | ok t1 => exact ih t1

theorem runBatches_ops_of_ok (idOf : R → Option Int) :
    ∀ (bs : List (List R)) (t t1), (runBatches idOf t bs).1 = Except.ok t1 →
      (runBatches idOf t bs).2 = bs.map DBOp.insertBatch := by
  intro bs
  induction bs with
  | nil => intro t t1 _; rfl
  | cons b bs ih =>
    intro t t1 h
    simp only [runBatches] at h ⊢
    cases hio : insertList idOf t b with
    | error e =>
      rw [hio] at h
      exact Except.noConfusion
        (show (Except.error e : Except String (List R)) = Except.ok t1 from h)
    | ok t' =>
      rw [hio] at h
      show DBOp.insertBatch b :: (runBatches idOf t' bs).2 =
        DBOp.insertBatch b :: bs.map DBOp.insertBatch
      exact congrArg (List.cons (DBOp.insertBatch b)) (ih t' t1 h)

theorem insertList_all_some_ok (idOf : R → Option Int) :
    ∀ (b : List R), (∀ r ∈ b, (idOf r).isSome) →
      ∀ t, ∃ t', insertList idOf t b = Except.ok t' := by
  intro b
  induction b with
  | nil => exact fun _ t => ⟨t, rfl⟩
  | cons r rs ih =>
    intro h t
    have hr : (idOf r).isSome := h r (List.mem_cons_self r rs)
    cases hid : idOf r with
    | none =>
      rw [hid] at hr
      cases hr
    | some i =>
      have hone : ∃ t1, insertOne idOf t r = Except.ok t1 := by
        unfold insertOne
        rw [hid]
        by_cases hmem : i ∈ tableIds idOf t
        · exact ⟨t, if_pos hmem⟩
        · exact ⟨t ++ [r], if_neg hmem⟩
      obtain ⟨t1, ht1⟩ := hone
      obtain ⟨t', ht'⟩ := ih (fun x hx => h x (List.mem_cons_of_mem r hx)) t1
      refine ⟨t', ?_⟩
      simp only [insertList, ht1]
      exact ht'

theorem toBatchesGo_join (n : Nat) :
    ∀ (f : Nat) (l : List R), l.length ≤ f → (toBatchesGo n f l).flatten = l := by
  intro f
  induction f with
  | zero =>
    intro l hl
    have : l = [] := List.eq_nil_of_length_eq_zero (Nat.le_zero.mp hl)
    subst this
    rfl
  | succ f ih =>
    intro l hl
    cases l with
    | nil => rfl
    | cons r rs =>
      show ((r :: rs).take (n + 1) :: toBatchesGo n f ((r :: rs).drop (n + 1))).flatten = r :: rs
      rw [List.flatten_cons]
      rw [ih ((r :: rs).drop (n + 1))
          (by simp only [List.length_drop, List.length_cons] at hl ⊢; omega),
        List.take_append_drop]

theorem toBatchesGo_mem_le (n : Nat) :
    ∀ (f : Nat) (l : List R) (b : List R), b ∈ toBatchesGo n f l → b.length ≤ n + 1 := by
  intro f
  induction f with
  | zero =>
    intro l b hb
    cases l <;> simp [toBatchesGo] at hb
  | succ f ih =>
    intro l b hb
    cases l with
    | nil => simp [toBatchesGo] at hb
    | cons r rs =>
      rcases List.mem_cons.mp hb with rfl | hm
      · rw [List.length_take]
        exact Nat.min_le_left _ _
      · exact ih _ b hm

theorem toBatches_flatten (n : Nat) (l : List R) : (toBatches n l).flatten = l :=
  toBatchesGo_join n l.length l (Nat.le_refl _)

theorem toBatches_mem_le (n : Nat) (l : List R) :
    ∀ b ∈ toBatches n l, b.length ≤ n + 1 :=
  fun b hb => toBatchesGo_mem_le n l.length l b hb

/-- The rows whose id is not already an id of the stored table — what
"truly new" means at the level of the whole table. -/
def fresh_rows (idOf : R → Option Int) (t rows : List R) : List R :=
  rows.filter (fun r =>
    match idOf r with
    | none => true
    | some i => !decide (i ∈ tableIds idOf t))

/-- Inside `upsert_rows`, filtering against the ids the `select`
returned is the same as filtering against the whole table: an id of a
candidate row is in the select's result exactly when it is in the
table, because the select was keyed on the candidate ids themselves. -/
theorem new_rows_eq_fresh (idOf : R → Option Int) (t rows : List R) :
    new_rows idOf
      ((tableIds idOf t).filter (fun i => decide (i ∈ rows.filterMap idOf)))
      rows = fresh_rows idOf t rows := by
  unfold new_rows fresh_rows
  apply List.filter_congr
  intro r hr
  cases hid : idOf r with
  | none => rfl
  | some i =>
    have hin : i ∈ rows.filterMap idOf := List.mem_filterMap.mpr ⟨r, hr, hid⟩
    have hiff : (i ∈ (tableIds idOf t).filter
        (fun i => decide (i ∈ rows.filterMap idOf))) ↔ i ∈ tableIds idOf t := by
      rw [List.mem_filter]
      exact ⟨fun h => h.1, fun h => ⟨h, decide_eq_true hin⟩⟩
    show (!decide (i ∈ (tableIds idOf t).filter
        (fun i => decide (i ∈ rows.filterMap idOf)))) =
      (!decide (i ∈ tableIds idOf t))
    rw [decide_eq_decide.mpr hiff]

/-- The select trace of `upsert_rows`. -/
def selOps (idOf : R → Option Int) (rows : List R) : List (DBOp R) :=
  if (rows.filterMap idOf).isEmpty then [] else [DBOp.selectIds (rows.filterMap idOf)]

/-- Full case analysis of `upsert_rows`: the early return on an empty
argument, the no-new-rows return after the select, and the two
outcomes of the batch loop. -/
theorem upsert_rows_cases (idOf : R → Option Int) (t rows : List R) :
    (rows.isEmpty = true ∧ upsert_rows idOf t rows = ((t, Except.ok 0), [])) ∨
    (rows.isEmpty = false ∧ (fresh_rows idOf t rows).isEmpty = true ∧
      upsert_rows idOf t rows = ((t, Except.ok 0), selOps idOf rows)) ∨
    (rows.isEmpty = false ∧ (fresh_rows idOf t rows).isEmpty = false ∧
      ((∃ e ops,
          runBatches idOf t (toBatches 499 (fresh_rows idOf t rows)) =
            (Except.error e, ops) ∧
          upsert_rows idOf t rows =
            ((t, Except.error e), selOps idOf rows ++ ops)) ∨
        (∃ t' ops,
          runBatches idOf t (toBatches 499 (fresh_rows idOf t rows)) =
            (Except.ok t', ops) ∧
          upsert_rows idOf t rows =
            ((t', Except.ok (fresh_rows idOf t rows).length),
              selOps idOf rows ++ ops ++ [DBOp.commit])))) := by
  have hnr := new_rows_eq_fresh idOf t rows
  by_cases hemp : rows.isEmpty = true
  · exact Or.inl ⟨hemp, by simp [upsert_rows, hemp]⟩
  · have hemp' : rows.isEmpty = false := Bool.eq_false_iff.mpr hemp
    by_cases hfr : (fresh_rows idOf t rows).isEmpty = true
    · refine Or.inr (Or.inl ⟨hemp', hfr, ?_⟩)
      simp only [upsert_rows, hemp', Bool.false_eq_true, if_false, hnr, hfr, if_true]
      rfl
    · have hfr' : (fresh_rows idOf t rows).isEmpty = false := Bool.eq_false_iff.mpr hfr
      refine Or.inr (Or.inr ⟨hemp', hfr', ?_⟩)
      rcases hrb : runBatches idOf t (toBatches 499 (fresh_rows idOf t rows))
        with ⟨res, ops⟩
      cases res with
      | error e =>
        refine Or.inl ⟨e, ops, rfl, ?_⟩
        simp only [upsert_rows, hemp', Bool.false_eq_true, if_false, hnr, hfr',
          hrb]
        rfl
      | ok t' =>
        refine Or.inr ⟨t', ops, rfl, ?_⟩
        simp only [upsert_rows, hemp', Bool.false_eq_true, if_false, hnr, hfr',
          hrb]
        rfl

/-- If every candidate row's id is already stored, nothing is new:
`upsert_rows` returns the table unchanged and reports 0. -/
theorem upsert_rows_all_known (idOf : R → Option Int) (t rows : List R)
    (h : ∀ r ∈ rows, ∃ i, idOf r = some i ∧ i ∈ tableIds idOf t) :
    (upsert_rows idOf t rows).1 = (t, Except.ok 0) := by
  have hfr : fresh_rows idOf t rows = [] := by
    rw [fresh_rows, List.filter_eq_nil_iff]
    intro r hr
    obtain ⟨i, hid, hmem⟩ := h r hr
    show ¬((match idOf r with
      | none => true
      | some i => !decide (i ∈ tableIds idOf t)) = true)
    rw [hid]
    simp [hmem]
  rcases upsert_rows_cases idOf t rows with ⟨_, heq⟩ | ⟨_, _, heq⟩ |
    ⟨_, hfr', _⟩
  · rw [heq]
  · rw [heq]
  · rw [hfr] at hfr'
    cases hfr'

/-- After a successful `upsert_rows`, every candidate id is stored. -/
theorem upsert_rows_ok_ids (idOf : R → Option Int) (t rows t1 : List R) (n : Nat)
    (hok : (upsert_rows idOf t rows).1 = (t1, Except.ok n)) :
    ∀ r ∈ rows, ∀ i, idOf r = some i → i ∈ tableIds idOf t1 := by
  intro r hr i hid
  rcases upsert_rows_cases idOf t rows with ⟨hemp, heq⟩ | ⟨_, hfr, heq⟩ |
    ⟨_, _, ⟨e, ops, _, heq⟩ | ⟨t', ops, hrb, heq⟩⟩
  · rw [List.isEmpty_iff.mp hemp] at hr
    cases hr
  · rw [heq] at hok
    have ht : t1 = t := ((Prod.mk.injEq _ _ _ _).mp hok).1.symm
    rw [ht]
    have hfr' : fresh_rows idOf t rows = [] := List.isEmpty_iff.mp hfr
    unfold fresh_rows at hfr'
    rw [List.filter_eq_nil_iff] at hfr'
    have hnp := hfr' r hr
    rw [hid] at hnp
    by_contra hc
    exact hnp (by simp [hc])
  · rw [heq] at hok
    exact absurd ((Prod.mk.injEq _ _ _ _).mp hok).2 (fun h2 => Except.noConfusion h2)
  · rw [heq] at hok
    have ht : t1 = t' := ((Prod.mk.injEq _ _ _ _).mp hok).1.symm
    rw [ht]
    have hins : insertList idOf t (fresh_rows idOf t rows) = Except.ok t' := by
      have h1 := runBatches_fst idOf (toBatches 499 (fresh_rows idOf t rows)) t
      rw [hrb, toBatches_flatten] at h1
      exact h1.symm
    obtain ⟨s, _, _, _, _, hs5, hs6⟩ := insertList_ok_spec idOf _ t t' hins
    by_cases hpred : r ∈ fresh_rows idOf t rows
    · exact hs6 r hpred i hid
    · unfold fresh_rows at hpred
      rw [List.mem_filter] at hpred
      have hnp : ¬((match idOf r with
          | none => true
          | some i => !decide (i ∈ tableIds idOf t)) = true) :=
        fun hp => hpred ⟨hr, hp⟩
      rw [hid] at hnp
      refine hs5 i ?_
      by_contra hc
      exact hnp (by simp [hc])

/-- C1: ingestion of an unchanged feed is idempotent.  If every
candidate offer's id is already present in the store, `upsert_rows`
reports 0 and leaves the stored rows unchanged; consequently a second
run over the same offer list (all carrying ids) after any successful
run reports 0 against the table the first run produced. -/
theorem upsert_rows_unchanged_feed (idOf : R → Option Int) (t rows : List R) :
    ((∀ r ∈ rows, ∃ i, idOf r = some i ∧ i ∈ tableIds idOf t) →
      (upsert_rows idOf t rows).1 = (t, Except.ok 0)) ∧
    ((∀ r ∈ rows, (idOf r).isSome) →
      ∀ t1 n, (upsert_rows idOf t rows).1 = (t1, Except.ok n) →
        (upsert_rows idOf t1 rows).1 = (t1, Except.ok 0)) := by
  constructor
  · exact upsert_rows_all_known idOf t rows
  · intro hids t1 n hok
    apply upsert_rows_all_known idOf t1 rows
    intro r hr
    have hsome := hids r hr
    cases hid : idOf r with
    | none =>
      rw [hid] at hsome
      cases hsome
    | some i =>
      exact ⟨i, rfl, upsert_rows_ok_ids idOf t rows t1 n hok r hr i hid⟩

/-- C1 witness: a table already holding id 7 gains nothing from an
offer with id 7; and after inserting id 5 into an empty table, re-running
with the same offer list reports 0. -/
theorem upsert_rows_unchanged_feed_witness :
    ((upsert_rows Prod.fst [((some 7 : Option Int), "A")]
        [((some 7 : Option Int), "C")]).1 =
      ([((some 7 : Option Int), "A")], Except.ok 0)) ∧
    ((upsert_rows Prod.fst [((some 5 : Option Int), "X")]
        [((some 5 : Option Int), "X")]).1 =
      ([((some 5 : Option Int), "X")], Except.ok 0)) :=
  ⟨(upsert_rows_unchanged_feed Prod.fst [((some 7 : Option Int), "A")]
      [((some 7 : Option Int), "C")]).1
      (by
        intro r hr
        rw [List.mem_singleton] at hr
        subst hr
        exact ⟨7, rfl, by decide⟩),
   (upsert_rows_unchanged_feed Prod.fst ([] : List (Option Int × String))
      [((some 5 : Option Int), "X")]).2
      (by
        intro r hr
        rw [List.mem_singleton] at hr
        subst hr
        rfl)
      [((some 5 : Option Int), "X")] 1 rfl⟩

/-- C2: id uniqueness is a store invariant and writes are
first-write-wins.  If the stored ids are distinct, then after any
`upsert_rows` (including its error path, which commits nothing) the
stored ids are still distinct, the previously stored rows are still
present unchanged in their positions (the table only grows by an
append), and looking any previously stored id up still finds the
original row — a later offer with the same id never overwrites it. -/
theorem upsert_rows_unique_ids (idOf : R → Option Int) (t rows : List R)
    (hnd : (tableIds idOf t).Nodup) :
    (tableIds idOf (((upsert_rows idOf t rows).1).1)).Nodup ∧
    (∃ s, ((upsert_rows idOf t rows).1).1 = t ++ s) ∧
    (∀ i, i ∈ tableIds idOf t →
      (((upsert_rows idOf t rows).1).1).find? (fun r => decide (idOf r = some i)) =
        t.find? (fun r => decide (idOf r = some i))) := by
  rcases upsert_rows_cases idOf t rows with ⟨_, heq⟩ | ⟨_, _, heq⟩ |
    ⟨_, _, ⟨e, ops, hrb, heq⟩ | ⟨t', ops, hrb, heq⟩⟩
  · rw [heq]
    exact ⟨hnd, ⟨[], by simp⟩, fun i _ => rfl⟩
  · rw [heq]
    exact ⟨hnd, ⟨[], by simp⟩, fun i _ => rfl⟩
  · rw [heq]
    exact ⟨hnd, ⟨[], by simp⟩, fun i _ => rfl⟩
  · rw [heq]
    have hins : insertList idOf t (fresh_rows idOf t rows) = Except.ok t' := by
      have h1 := runBatches_fst idOf (toBatches 499 (fresh_rows idOf t rows)) t
      rw [hrb, toBatches_flatten] at h1
      exact h1.symm
    obtain ⟨s, hs1, _, hs3, hs4, _, _⟩ := insertList_ok_spec idOf _ t t' hins
    refine ⟨hs4 hnd, ⟨s, hs1⟩, ?_⟩
    intro i hi
    rw [hs1, List.find?_append]
    obtain ⟨r0, hr0, hid0⟩ := List.mem_filterMap.mp hi
    have hsome : (t.find? (fun r => decide (idOf r = some i))).isSome :=
      List.find?_isSome.mpr ⟨r0, hr0, decide_eq_true hid0⟩
    cases hf : t.find? (fun r => decide (idOf r = some i)) with
    | none =>
      rw [hf] at hsome
      cases hsome
    | some v => rfl

/-- C2 witness: a store holding id 1 receives offers with ids 1 and 2;
ids stay distinct, the stored row for id 1 survives unchanged, and
lookup of id 1 still yields the original row. -/
theorem upsert_rows_unique_ids_witness :
    (tableIds Prod.fst (((upsert_rows Prod.fst [((some 1 : Option Int), "A")]
        [((some 1 : Option Int), "B"), ((some 2 : Option Int), "C")]).1).1)).Nodup ∧
    (∃ s, ((upsert_rows Prod.fst [((some 1 : Option Int), "A")]
        [((some 1 : Option Int), "B"), ((some 2 : Option Int), "C")]).1).1 =
      [((some 1 : Option Int), "A")] ++ s) ∧
    (∀ i, i ∈ tableIds Prod.fst [((some 1 : Option Int), "A")] →
      (((upsert_rows Prod.fst [((some 1 : Option Int), "A")]
          [((some 1 : Option Int), "B"), ((some 2 : Option Int), "C")]).1).1).find?
          (fun r => decide (Prod.fst r = some i)) =
        ([((some 1 : Option Int), "A")]).find?
          (fun r => decide (Prod.fst r = some i))) :=
  upsert_rows_unique_ids Prod.fst [((some 1 : Option Int), "A")]
    [((some 1 : Option Int), "B"), ((some 2 : Option Int), "C")] (by decide)

/-- C8 counterexample: for the non-empty offer list `[(1, "B")]`
against a table already holding id 1 the function returns without ever
committing — the trace holds no commit at all — so "commits exactly
once after all batches" does not hold of every non-empty offer list. -/
theorem upsert_rows_no_commit_counterexample :
    ([((some 1 : Option Int), "B")] : List (Option Int × String)) ≠ [] ∧
    (upsert_rows Prod.fst [((some 1 : Option Int), "A")]
      [((some 1 : Option Int), "B")]).2.countP DBOp.isCommit = 0 :=
  ⟨by decide, by decide⟩

/-- Map then refilter: the batch contents of a pure insert-batch trace. -/
theorem filterMap_batchRows_map (bs : List (List R)) :
    (bs.map (DBOp.insertBatch (R := R))).filterMap DBOp.batchRows = bs := by
  induction bs with
  | nil => rfl
  | cons b bs ih =>
    rw [List.map_cons, List.filterMap_cons]
    show b :: (bs.map (DBOp.insertBatch (R := R))).filterMap DBOp.batchRows = b :: bs
    rw [ih]

/-- C8 (amended): for offers that all carry ids, an empty offer list
returns 0 with no statement issued; a non-empty one returns the size
of the pre-insert new-rows set (not a post-commit verified count does
not apply — the count is fixed before the batches run); when that set
is empty the function returns 0 after only the known-ids select, with
no insert and no commit; and when it is non-empty the batches sent
hold exactly the new rows, each batch has at most 500 rows, exactly
one commit is issued and it comes after all batches, and only rows of
the new-rows set are appended to the table. -/
theorem upsert_rows_batches_count (idOf : R → Option Int) (t rows : List R)
    (hids : ∀ r ∈ rows, (idOf r).isSome) :
    (rows = [] → upsert_rows idOf t rows = ((t, Except.ok 0), [])) ∧
    (rows ≠ [] →
      ((upsert_rows idOf t rows).1).2 =
        Except.ok (fresh_rows idOf t rows).length) ∧
    (rows ≠ [] → fresh_rows idOf t rows = [] →
      upsert_rows idOf t rows =
        ((t, Except.ok 0), [DBOp.selectIds (rows.filterMap idOf)])) ∧
    (rows ≠ [] → fresh_rows idOf t rows ≠ [] →
      (((upsert_rows idOf t rows).2.filterMap DBOp.batchRows).flatten =
        fresh_rows idOf t rows) ∧
      (∀ b ∈ (upsert_rows idOf t rows).2.filterMap DBOp.batchRows,
        b.length ≤ 500) ∧
      ((upsert_rows idOf t rows).2.countP DBOp.isCommit = 1) ∧
      ((upsert_rows idOf t rows).2.getLast? = some DBOp.commit) ∧
      (∃ s, ((upsert_rows idOf t rows).1).1 = t ++ s ∧
        ∀ r ∈ s, r ∈ fresh_rows idOf t rows)) := by
  have hsel : rows ≠ [] → selOps idOf rows = [DBOp.selectIds (rows.filterMap idOf)] := by
    intro hne
    cases rows with
    | nil => exact absurd rfl hne
    | cons r rs =>
      have hsome := hids r (List.mem_cons_self r rs)
      cases hid : idOf r with
      | none =>
        rw [hid] at hsome
        cases hsome
      | some i =>
        unfold selOps
        rw [if_neg (by simp [List.filterMap_cons, hid])]
  have hfr_ids : ∀ r ∈ fresh_rows idOf t rows, (idOf r).isSome := by
    intro r hrm
    unfold fresh_rows at hrm
    exact hids r (List.mem_of_mem_filter hrm)
  obtain ⟨tgood, htgood⟩ :=
    insertList_all_some_ok idOf (fresh_rows idOf t rows) hfr_ids t
  have hrbok : (runBatches idOf t (toBatches 499 (fresh_rows idOf t rows))).1 =
      Except.ok tgood := by
    rw [runBatches_fst, toBatches_flatten]
    exact htgood
  rcases upsert_rows_cases idOf t rows with ⟨hemp, heq⟩ | ⟨hemp, hfr, heq⟩ |
    ⟨hemp, hfr, ⟨e, ops, hrb, heq⟩ | ⟨t', ops, hrb, heq⟩⟩
  · refine ⟨fun _ => heq, ?_, ?_, ?_⟩
    · intro hne
      exact absurd (List.isEmpty_iff.mp hemp) hne
    · intro hne
      exact absurd (List.isEmpty_iff.mp hemp) hne
    · intro hne
      exact absurd (List.isEmpty_iff.mp hemp) hne
  · have hfrnil : fresh_rows idOf t rows = [] := List.isEmpty_iff.mp hfr
    have hne : rows ≠ [] := by
      intro e
      rw [e] at hemp
      cases hemp
    refine ⟨fun e => absurd e hne, ?_, ?_, ?_⟩
    · intro _
      rw [heq, hfrnil]
      rfl
    · intro _ _
      rw [heq, hsel hne]
    · intro _ hcon
      exact absurd hfrnil hcon
  · rw [hrb] at hrbok
    exact absurd hrbok (fun h2 => Except.noConfusion h2)
  · have hne : rows ≠ [] := by
      intro e
      rw [e] at hemp
      cases hemp
    have hfrne : fresh_rows idOf t rows ≠ [] := by
      intro e
      rw [e] at hfr
      cases hfr
    have hops : ops = (toBatches 499 (fresh_rows idOf t rows)).map DBOp.insertBatch := by
      have h2 := runBatches_ops_of_ok idOf (toBatches 499 (fresh_rows idOf t rows)) t tgood
        hrbok
      rw [hrb] at h2 hrbok
      exact h2
    refine ⟨fun e => absurd e hne, fun _ => by rw [heq], fun _ e => absurd e hfrne,
      fun _ _ => ?_⟩
    have htrace : (upsert_rows idOf t rows).2 =
        [DBOp.selectIds (rows.filterMap idOf)] ++
          (toBatches 499 (fresh_rows idOf t rows)).map DBOp.insertBatch ++
          [DBOp.commit] := by
      rw [heq, hsel hne, hops]
    have hbatches : (upsert_rows idOf t rows).2.filterMap DBOp.batchRows =
        toBatches 499 (fresh_rows idOf t rows) := by
      rw [htrace, List.filterMap_append, List.filterMap_append,
        filterMap_batchRows_map]
      simp [DBOp.batchRows, List.filterMap_cons]
    refine ⟨?_, ?_, ?_, ?_, ?_⟩
    · rw [hbatches, toBatches_flatten]
    · intro b hb
      rw [hbatches] at hb
      exact toBatches_mem_le 499 _ b hb
    · rw [htrace, List.countP_append, List.countP_append]
      have hz : ((toBatches 499 (fresh_rows idOf t rows)).map
          DBOp.insertBatch).countP DBOp.isCommit = 0 := by
        rw [List.countP_eq_zero]
        intro a ha
        obtain ⟨b, _, rfl⟩ := List.mem_map.mp ha
        simp [DBOp.isCommit]
      rw [hz]
      rfl
    · rw [htrace]
      rw [show ([DBOp.selectIds (rows.filterMap idOf)] ++
          (toBatches 499 (fresh_rows idOf t rows)).map DBOp.insertBatch ++
          [DBOp.commit] : List (DBOp R)) =
          ([DBOp.selectIds (rows.filterMap idOf)] ++
            (toBatches 499 (fresh_rows idOf t rows)).map DBOp.insertBatch) ++
          [DBOp.commit] from rfl]
      exact List.getLast?_concat _
    · have hins : insertList idOf t (fresh_rows idOf t rows) = Except.ok t' := by
        have h1 := runBatches_fst idOf (toBatches 499 (fresh_rows idOf t rows)) t
        rw [hrb, toBatches_flatten] at h1
        exact h1.symm
      obtain ⟨s, hs1, hs2, _, _, _, _⟩ := insertList_ok_spec idOf _ t t' hins
      rw [heq]
      exact ⟨s, hs1, hs2⟩

/-- C8 witness: one fresh offer against an empty table — the count is
the new-rows set's size and exactly one commit is issued. -/
theorem upsert_rows_batches_count_witness :
    (((upsert_rows Prod.fst ([] : List (Option Int × String))
        [((some 3 : Option Int), "A")]).1).2 =
      Except.ok (fresh_rows Prod.fst ([] : List (Option Int × String))
        [((some 3 : Option Int), "A")]).length) ∧
    ((upsert_rows Prod.fst ([] : List (Option Int × String))
        [((some 3 : Option Int), "A")]).2.countP DBOp.isCommit = 1) :=
  ⟨(upsert_rows_batches_count Prod.fst ([] : List (Option Int × String))
      [((some 3 : Option Int), "A")] (by decide)).2.1 (by decide),
   ((upsert_rows_batches_count Prod.fst ([] : List (Option Int × String))
      [((some 3 : Option Int), "A")] (by decide)).2.2.2 (by decide)
      (by decide)).2.2.1⟩

/-- C10: two offers sharing the not-yet-stored id 7 are both kept in
the new-rows set, both are sent to the database in the single batch,
the conflict-skip stores only the first, and the function reports 2
inserted — more than the 1 row the table actually gained. -/
theorem upsert_rows_duplicate_ids_overcount :
    (fresh_rows Prod.fst ([] : List (Option Int × String))
        [((some 7 : Option Int), "A"), ((some 7 : Option Int), "B")] =
      [((some 7 : Option Int), "A"), ((some 7 : Option Int), "B")]) ∧
    (upsert_rows Prod.fst ([] : List (Option Int × String))
        [((some 7 : Option Int), "A"), ((some 7 : Option Int), "B")] =
      (([((some 7 : Option Int), "A")], Except.ok 2),
        [DBOp.selectIds [7, 7],
          DBOp.insertBatch
            [((some 7 : Option Int), "A"), ((some 7 : Option Int), "B")],
          DBOp.commit])) ∧
    ([((some 7 : Option Int), "A")] : List (Option Int × String)).length < 2 :=
  ⟨by decide, rfl, by decide⟩

/-- C9: `ensure_table` always restores the connection's prior
autocommit flag (on success, on DDL failure, and on a rejected table
name), leaves every other component of the connection state untouched,
runs every DDL execution with autocommit on, creates the table
if-absent exactly on the success path, changes no table on any failure,
and is a complete no-op (same connection, one autocommitted DDL) when
the validated table already exists. -/
theorem ensure_table_autocommit_frame {ρ : Type} (ddlFails : Bool) (c : Conn ρ)
    (name : Option String) :
    ((((ensure_table ddlFails c name).1).2).autocommit = c.autocommit) ∧
    ((((ensure_table ddlFails c name).1).2).rest = c.rest) ∧
    (∀ b ∈ (ensure_table ddlFails c name).2, b = true) ∧
    (((ensure_table ddlFails c name).1).1 = none →
      ∃ tn, _validated_table_name name = Except.ok tn ∧
        (((ensure_table ddlFails c name).1).2).tables =
          createTableIfAbsent c.tables tn) ∧
    (((ensure_table ddlFails c name).1).1 ≠ none →
      (((ensure_table ddlFails c name).1).2).tables = c.tables) ∧
    (∀ tn, _validated_table_name name = Except.ok tn → ddlFails = false →
      tn ∈ c.tables.map Prod.fst →
      ensure_table ddlFails c name = ((none, c), [true])) := by
  cases hv : _validated_table_name name with
  | error e =>
    refine ⟨?_, ?_, ?_, ?_, ?_, ?_⟩ <;> simp [ensure_table, hv]
  | ok tn =>
    cases ddlFails with
    | true =>
      refine ⟨?_, ?_, ?_, ?_, ?_, ?_⟩ <;> simp [ensure_table, hv]
    | false =>
      refine ⟨?_, ?_, ?_, ?_, ?_, ?_⟩
      · simp [ensure_table, hv]
      · simp [ensure_table, hv]
      · simp [ensure_table, hv]
      · intro _
        exact ⟨tn, rfl, by simp [ensure_table, hv]⟩
      · intro hcon
        exact absurd (by simp [ensure_table, hv]) hcon
      · intro tn' htn' _ hmem
        have htn2 : tn' = tn := (Except.ok.inj htn').symm
        subst htn2
        simp [ensure_table, hv, createTableIfAbsent, hmem]

/-- C9 witness: a connection whose table already exists, with
autocommit initially on and an opaque payload 5, is returned exactly
as it was, with one DDL executed under autocommit. -/
theorem ensure_table_autocommit_frame_witness :
    ensure_table false (Conn.mk true [("offers", offersSchema)] (5 : Nat))
      (some "offers") =
      ((none, Conn.mk true [("offers", offersSchema)] (5 : Nat)), [true]) :=
  (ensure_table_autocommit_frame false
      (Conn.mk true [("offers", offersSchema)] (5 : Nat))
      (some "offers")).2.2.2.2.2 "offers" rfl rfl (by decide)

end OilTenders
